import Mathlib

/-!
# WPM estimator (`app/src/wpm.c`)

A shallow embedding of the words-per-minute estimator: its four static
variables, the key-event listener, the periodic work handler, the query and
the startup entry point.

The rate expression of `wpm_work_handler` is evaluated by C in single
precision (`CHARS_PER_WORD` is the `float` constant `5.0f`), so the embedding
carries an exact model of the non-negative IEEE-754 binary32 values with
round-to-nearest, ties-to-even.  Machine integers are `Nat` with explicit
reduction modulo `2 ^ 8` or `2 ^ 16`.
-/

namespace Wpm

/-! ## Non-negative binary32 arithmetic -/

/-- A non-negative binary32 value: the finite value `man * 2 ^ exp`, positive
infinity, or a NaN.  Every operand of the rate expression is non-negative, so
no sign is carried. -/
inductive F32 where
  | fin (man : Nat) (exp : Int)
  | inf
  | nan
  deriving DecidableEq, Repr

/-- Nearest integer to `n / d`, ties to the even neighbour (`d` positive). -/
def roundNearestEven (n d : Nat) : Nat :=
  let q := n / d
  let r := n % d
  if 2 * r < d then q
  else if d < 2 * r then q + 1
  else if q % 2 = 0 then q else q + 1

/-- Position of the leading binary digit of `n`, by repeated halving; the
first argument bounds the number of halvings. -/
def log2Aux : Nat → Nat → Nat
  | 0, _ => 0
  | fuel + 1, n => if n < 2 then 0 else log2Aux fuel (n / 2) + 1

/-- Floor of the binary logarithm of a positive natural number. -/
def log2 (n : Nat) : Nat := log2Aux n n

/-- The integer `e` with `2 ^ e ≤ n / d < 2 ^ (e + 1)`, for positive `n`, `d`. -/
def floorLog2 (n d : Nat) : Int :=
  let a := log2 n
  let b := log2 d
  if d * 2 ^ a ≤ n * 2 ^ b then (a : Int) - (b : Int) else (a : Int) - (b : Int) - 1

/-- Rounding of the exact non-negative rational `n / d` (`d` positive) to
binary32: 24 significant bits, least exponent of the last place `-149`
(subnormals), overflow to infinity at `2 ^ 128`. -/
def F32.round (n d : Nat) : F32 :=
  if n = 0 then F32.fin 0 0
  else
    let e := floorLog2 n d
    let q := max (e - 23) (-149)
    let m := if 0 ≤ q then roundNearestEven n (d * 2 ^ q.toNat)
             else roundNearestEven (n * 2 ^ (-q).toNat) d
    if 0 ≤ q ∧ 2 ^ 128 ≤ m * 2 ^ q.toNat then F32.inf else F32.fin m q

/-- Conversion of an unsigned integer to `float`. -/
def F32.ofNat (n : Nat) : F32 := F32.round n 1

/-- Numerator and denominator of the finite value `man * 2 ^ exp`. -/
def F32.frac (man : Nat) (exp : Int) : Nat × Nat :=
  if 0 ≤ exp then (man * 2 ^ exp.toNat, 1) else (man, 2 ^ (-exp).toNat)

/-- Single-precision product of non-negative values. -/
def F32.mul : F32 → F32 → F32
  | F32.nan, _ => F32.nan
  | _, F32.nan => F32.nan
  | F32.inf, F32.inf => F32.inf
  | F32.inf, F32.fin m _ => if m = 0 then F32.nan else F32.inf
  | F32.fin m _, F32.inf => if m = 0 then F32.nan else F32.inf
  | F32.fin m1 e1, F32.fin m2 e2 =>
    let a := F32.frac m1 e1
    let b := F32.frac m2 e2
    F32.round (a.1 * b.1) (a.2 * b.2)

/-- Single-precision quotient of non-negative values. -/
def F32.div : F32 → F32 → F32
  | F32.nan, _ => F32.nan
  | _, F32.nan => F32.nan
  | F32.inf, F32.inf => F32.nan
  | F32.inf, F32.fin _ _ => F32.inf
  | F32.fin _ _, F32.inf => F32.fin 0 0
  | F32.fin m1 e1, F32.fin m2 e2 =>
    if m2 = 0 then (if m1 = 0 then F32.nan else F32.inf)
    else
      let a := F32.frac m1 e1
      let b := F32.frac m2 e2
      F32.round (a.1 * b.2) (a.2 * b.1)

/-- Integral part of a finite value (truncation toward zero); `none` for
infinity and NaN. -/
def F32.trunc : F32 → Option Nat
  | F32.fin m e => let a := F32.frac m e; some (a.1 / a.2)
  | _ => none

/-- Conversion of a `float` to `uint8_t`: the integral part when it fits in
eight bits.  C leaves the conversion undefined when it does not fit (or the
value is not finite); the byte the target then produces is the parameter
`oor`, reduced to eight bits. -/
def F32.toU8 (oor : F32 → Nat) (x : F32) : Nat :=
  match x.trunc with
  | some t => if t ≤ 255 then t else oor x % 256
  | none => oor x % 256

/-! ## Configuration constants -/

/-- How often the WPM counter refreshes, in milliseconds. -/
def WPM_UPDATE_INTERVAL_MS : Nat := 250

/-- Seconds after which the counters are zeroed. -/
def WPM_RESET_INTERVAL_SECONDS : Nat := 10

/-- Below this value the WPM is shown as 0. -/
def WPM_ZERO_THRESHOLD : Nat := 5

/-- The `uint16_t` constant `60000 / WPM_UPDATE_INTERVAL_MS`. -/
def UPDATES_PER_MIN : Nat := (60000 / WPM_UPDATE_INTERVAL_MS) % 2 ^ 16

/-- The `uint8_t` constant `1000 / WPM_UPDATE_INTERVAL_MS`. -/
def UPDATES_PER_SECOND : Nat := (1000 / WPM_UPDATE_INTERVAL_MS) % 2 ^ 8

/-- The `uint8_t` constant `WPM_RESET_INTERVAL_SECONDS * UPDATES_PER_SECOND`. -/
def RESET_UPDATES_COUNT : Nat := (WPM_RESET_INTERVAL_SECONDS * UPDATES_PER_SECOND) % 2 ^ 8

/-- The `float` constant `5.0f`. -/
def CHARS_PER_WORD : F32 := F32.round 5 1

/-! ## State, events and entry points -/

/-- The four file-scope variables of `wpm.c`: three `uint8_t` and one
`uint16_t`. -/
structure State where
  wpm_state : Nat
  last_wpm_state : Nat
  wpm_update_counter : Nat
  key_pressed_count : Nat
  deriving DecidableEq, Repr

/-- Payload of a keycode event, with the two fields the listener reads. -/
structure zmk_keycode_state_changed where
  keycode : Nat
  state : Bool
  deriving DecidableEq, Repr

/-- An event handed to a listener: a keycode event or an event of another
type. -/
inductive zmk_event_t where
  | keycode_state_changed (ev : zmk_keycode_state_changed)
  | other
  deriving DecidableEq, Repr

/-- The event cast: the payload of a keycode event, `none` (the C `NULL`) for
any other event. -/
def as_zmk_keycode_state_changed : zmk_event_t → Option zmk_keycode_state_changed
  | zmk_event_t.keycode_state_changed ev => some ev
  | zmk_event_t.other => none

/-- Payload of the notification raised by the work handler. -/
structure zmk_wpm_state_changed where
  state : Nat
  deriving DecidableEq, Repr

/-- What an entry point leaves behind: the new values of the static
variables, the notifications it raised (in order) and its return value
(`0` for the `void` handler). -/
structure Outcome where
  st : State
  raised : List zmk_wpm_state_changed
  ret : Int
  deriving DecidableEq, Repr

/-- The static initialisers: `wpm_state = -1` converted to `uint8_t`, the
other three variables zero-initialised. -/
def static_init : State :=
  { wpm_state := ((-1 : Int) % 2 ^ 8).toNat
    last_wpm_state := 0
    wpm_update_counter := 0
    key_pressed_count := 0 }

/-- The query `zmk_wpm_get_state`. -/
def zmk_wpm_get_state (s : State) : Outcome :=
  { st := s, raised := [], ret := (s.wpm_state : Int) }

/-- The listener `wpm_event_listener`: counts key-up events only. -/
def wpm_event_listener (s : State) (eh : zmk_event_t) : Outcome :=
  match as_zmk_keycode_state_changed eh with
  | some ev =>
    if !ev.state then
      { st := { s with key_pressed_count := (s.key_pressed_count + 1) % 2 ^ 16 }
        raised := [], ret := 0 }
    else { st := s, raised := [], ret := 0 }
  | none => { st := s, raised := [], ret := 0 }

/-- The `float` value of
`(key_pressed_count / (CHARS_PER_WORD * wpm_update_counter)) * UPDATES_PER_MIN`
for counter value `c` and key count `k`. -/
def rawWpm (k c : Nat) : F32 :=
  F32.mul (F32.div (F32.ofNat k) (F32.mul CHARS_PER_WORD (F32.ofNat c))) (F32.ofNat UPDATES_PER_MIN)

/-- The periodic handler `wpm_work_handler`. -/
def wpm_work_handler (oor : F32 → Nat) (s : State) : Outcome :=
  let c := (s.wpm_update_counter + 1) % 2 ^ 8
  let w0 := F32.toU8 oor (rawWpm s.key_pressed_count c)
  let w := if w0 < WPM_ZERO_THRESHOLD then 0 else w0
  let pub : Bool := decide (w > 0) || decide (s.last_wpm_state ≠ 0)
  let raised := if pub then [{ state := w : zmk_wpm_state_changed }] else []
  let last := if pub then w else s.last_wpm_state
  if c ≥ RESET_UPDATES_COUNT then
    { st := { wpm_state := w, last_wpm_state := last, wpm_update_counter := 0
              key_pressed_count := 0 }
      raised := raised, ret := 0 }
  else
    { st := { wpm_state := w, last_wpm_state := last, wpm_update_counter := c
              key_pressed_count := s.key_pressed_count }
      raised := raised, ret := 0 }

/-- The startup entry point `wpm_init` (the timer it starts is the source of
the ticks and holds no estimator state). -/
def wpm_init (s : State) : Outcome :=
  { st := { s with wpm_state := 0, wpm_update_counter := 0 }, raised := [], ret := 0 }

/-- The state once startup has completed: the static initialisers followed by
`wpm_init`. -/
def fresh : State := (wpm_init static_init).st

/-- A key-release event for key `kc`. -/
def key_release (kc : Nat) : zmk_event_t :=
  zmk_event_t.keycode_state_changed { keycode := kc, state := false }

/-- State after `n` key-release events with keycodes given by `kc`. -/
def releases (kc : Nat → Nat) : Nat → State → State
  | 0, s => s
  | n + 1, s => releases kc n (wpm_event_listener s (key_release (kc n))).st

/-- State after `n` consecutive ticks with no event in between. -/
def ticks (oor : F32 → Nat) : Nat → State → State
  | 0, s => s
  | n + 1, s => ticks oor n (wpm_work_handler oor s).st

/-- Notifications raised by `n` consecutive ticks, one list per tick. -/
def tickLog (oor : F32 → Nat) : Nat → State → List (List zmk_wpm_state_changed)
  | 0, _ => []
  | n + 1, s => (wpm_work_handler oor s).raised :: tickLog oor n (wpm_work_handler oor s).st

/-- One stimulus from the environment: an event delivered to the listener or a
timer tick. -/
inductive Input where
  | event (eh : zmk_event_t)
  | tick
  deriving DecidableEq, Repr

/-- One step of the estimator on a stimulus. -/
def step (oor : F32 → Nat) (s : State) : Input → State
  | Input.event eh => (wpm_event_listener s eh).st
  | Input.tick => (wpm_work_handler oor s).st

/-- State after a sequence of stimuli. -/
def run (oor : F32 → Nat) (s : State) (tr : List Input) : State :=
  tr.foldl (step oor) s

/-- Number of ticks in a sequence of stimuli. -/
def countTicks (tr : List Input) : Nat :=
  tr.count Input.tick

/-- The threshold step on an integer reading: 0 below `WPM_ZERO_THRESHOLD`. -/
def floorThreshold (v : Nat) : Nat :=
  if v < WPM_ZERO_THRESHOLD then 0 else v

/-! ## Notions used to state the properties -/

/-- Whether a binary32 value is finite and below the integer `n`. -/
def F32.ltNat : F32 → Nat → Prop
  | F32.fin m e, n => (F32.frac m e).1 < n * (F32.frac m e).2
  | _, _ => False

instance (x : F32) (n : Nat) : Decidable (F32.ltNat x n) := by
  cases x <;> unfold F32.ltNat <;> infer_instance

/-- One conversion of out-of-range values, for running the model on concrete
inputs: the integral part (of which `F32.toU8` keeps the low byte), `0` for a
value that is not finite. -/
def oorLowByte (x : F32) : Nat :=
  match x.trunc with
  | some t => t
  | none => 0

/-- The reading of the specification's formula in exact arithmetic:
`(k / (5 * c)) * 240` truncated once, which is `240 * k / (5 * c)` in
natural-number division. -/
def exactFloor (k c : Nat) : Nat := k * UPDATES_PER_MIN / (5 * c)

/-- The byte the handler stores for key count `k` and incremented counter
`c`, before the reset policy. -/
def newWpm (oor : F32 → Nat) (k c : Nat) : Nat :=
  floorThreshold (F32.toU8 oor (rawWpm k c))

/-- Rational value of a binary32 value; `0` for the values that are not
finite. -/
def F32.val : F32 → ℚ
  | F32.fin m e => ((F32.frac m e).1 : ℚ) / ((F32.frac m e).2 : ℚ)
  | _ => 0

/-- The value `x` is finite and equal to the integer `J`. -/
def F32.IsInt (x : F32) (J : Nat) : Prop :=
  ∃ m e, x = F32.fin m e ∧ (F32.frac m e).1 = J * (F32.frac m e).2

/-- Integral part of the single-precision rate for key count `k` and counter
value `c` (`0` when the rate is not finite). -/
def rawTrunc (k c : Nat) : Nat := ((rawWpm k c).trunc).getD 0

/-- Return values of `n` successive calls of `zmk_wpm_get_state` with nothing
in between, and the state they leave. -/
def queries : Nat → State → List Int × State
  | 0, s => ([], s)
  | n + 1, s =>
    ((zmk_wpm_get_state s).ret :: (queries n (zmk_wpm_get_state s).st).1,
      (queries n (zmk_wpm_get_state s).st).2)

/-! ## General facts about the arithmetic and the handlers -/

theorem exactFloor_eq_floor (k c : Nat) :
    exactFloor k c = ⌊((k : ℚ) / (5 * (c : ℚ))) * 240⌋₊ := by
  have h : ((k : ℚ) / (5 * (c : ℚ))) * 240 = ((k * 240 : Nat) : ℚ) / ((5 * c : Nat) : ℚ) := by
    push_cast
    ring
  rw [h, Nat.floor_div_eq_div]
  rfl

theorem toU8_le (oor : F32 → Nat) (x : F32) : F32.toU8 oor x ≤ 255 := by
  unfold F32.toU8
  split
  · split
    · assumption
    · omega
  · omega

theorem toU8_of_trunc (oor : F32 → Nat) (x : F32) (t : Nat)
    (h : x.trunc = some t) (ht : t ≤ 255) : F32.toU8 oor x = t := by
  simp [F32.toU8, h, ht]

theorem trunc_of_ltNat (x : F32) (n : Nat) (h : F32.ltNat x n) :
    ∃ t, x.trunc = some t ∧ t < n := by
  cases x with
  | fin m e =>
    refine ⟨(F32.frac m e).1 / (F32.frac m e).2, rfl, ?_⟩
    unfold F32.ltNat at h
    exact Nat.div_lt_of_lt_mul (by rw [Nat.mul_comm]; exact h)
  | inf => exact absurd h (by simp [F32.ltNat])
  | nan => exact absurd h (by simp [F32.ltNat])

theorem handler_wpm (oor : F32 → Nat) (s : State) :
    (wpm_work_handler oor s).st.wpm_state
      = newWpm oor s.key_pressed_count ((s.wpm_update_counter + 1) % 2 ^ 8) := by
  unfold wpm_work_handler newWpm floorThreshold
  simp only []
  split_ifs <;> rfl

theorem handler_raised (oor : F32 → Nat) (s : State) :
    (wpm_work_handler oor s).raised
      = if (wpm_work_handler oor s).st.wpm_state ≠ 0 ∨ s.last_wpm_state ≠ 0
        then [{ state := (wpm_work_handler oor s).st.wpm_state }] else [] := by
  unfold wpm_work_handler
  simp only []
  split_ifs <;> simp_all

theorem handler_last (oor : F32 → Nat) (s : State) :
    (wpm_work_handler oor s).st.last_wpm_state
      = if (wpm_work_handler oor s).st.wpm_state ≠ 0 ∨ s.last_wpm_state ≠ 0
        then (wpm_work_handler oor s).st.wpm_state else s.last_wpm_state := by
  unfold wpm_work_handler
  simp only []
  split_ifs <;> simp_all

theorem handler_counter (oor : F32 → Nat) (s : State) :
    (wpm_work_handler oor s).st.wpm_update_counter
      = if (s.wpm_update_counter + 1) % 2 ^ 8 ≥ RESET_UPDATES_COUNT then 0
        else (s.wpm_update_counter + 1) % 2 ^ 8 := by
  unfold wpm_work_handler
  simp only []
  split_ifs <;> rfl

theorem handler_keys (oor : F32 → Nat) (s : State) :
    (wpm_work_handler oor s).st.key_pressed_count
      = if (s.wpm_update_counter + 1) % 2 ^ 8 ≥ RESET_UPDATES_COUNT then 0
        else s.key_pressed_count := by
  unfold wpm_work_handler
  simp only []
  split_ifs <;> rfl

theorem newWpm_le (oor : F32 → Nat) (k c : Nat) : newWpm oor k c ≤ 255 := by
  unfold newWpm floorThreshold
  have := toU8_le oor (rawWpm k c)
  split_ifs <;> omega

theorem newWpm_not_small (oor : F32 → Nat) (k c : Nat) :
    newWpm oor k c = 0 ∨ 5 ≤ newWpm oor k c := by
  unfold newWpm floorThreshold WPM_ZERO_THRESHOLD
  split_ifs <;> omega

theorem releases_keys (kc : Nat → Nat) (n : Nat) (s : State)
    (h : s.key_pressed_count < 2 ^ 16) :
    releases kc n s = { s with key_pressed_count := (s.key_pressed_count + n) % 2 ^ 16 } := by
  induction n generalizing s with
  | zero =>
    cases s
    simp only [releases, Nat.add_zero]
    simp only [State.mk.injEq, true_and] at *
    exact (Nat.mod_eq_of_lt h).symm
  | succ n ih =>
    rw [releases]
    have h1 : (wpm_event_listener s (key_release (kc n))).st
        = { s with key_pressed_count := (s.key_pressed_count + 1) % 2 ^ 16 } := by
      simp [wpm_event_listener, key_release, as_zmk_keycode_state_changed]
    rw [h1, ih _ (Nat.mod_lt _ (by norm_num))]
    simp only [State.mk.injEq, true_and]
    omega

/-! ## Rounding error of the single-precision rate -/

theorem frac_snd_pos (m : Nat) (e : Int) : 0 < (F32.frac m e).2 := by
  unfold F32.frac
  split_ifs
  · exact Nat.one_pos
  · exact Nat.two_pow_pos _

theorem frac_val (m : Nat) (e : Int) :
    ((F32.frac m e).1 : ℚ) / ((F32.frac m e).2 : ℚ) = (m : ℚ) * 2 ^ e := by
  unfold F32.frac
  split_ifs with h
  · obtain ⟨E, rfl⟩ := Int.eq_ofNat_of_zero_le h
    simp [zpow_natCast]
  · obtain ⟨E, rfl⟩ := Int.exists_eq_neg_ofNat (by omega : e ≤ 0)
    simp only [Int.neg_neg, Int.toNat_ofNat, zpow_neg, zpow_natCast]
    push_cast
    rw [div_eq_mul_inv]

theorem rne_err (N D : Nat) (hD : 0 < D) :
    |(roundNearestEven N D : ℚ) - (N : ℚ) / (D : ℚ)| ≤ 1 / 2 := by
  have hDq : (0 : ℚ) < (D : ℚ) := by exact_mod_cast hD
  have hdm := Nat.div_add_mod N D
  have hlt := Nat.mod_lt N hD
  have hN : (N : ℚ) = (D : ℚ) * ((N / D : Nat) : ℚ) + ((N % D : Nat) : ℚ) := by
    exact_mod_cast hdm.symm
  have hr0 : (0 : ℚ) ≤ ((N % D : Nat) : ℚ) := by positivity
  have hr1 : ((N % D : Nat) : ℚ) < (D : ℚ) := by exact_mod_cast hlt
  have hdiv : (N : ℚ) / (D : ℚ) = ((N / D : Nat) : ℚ) + ((N % D : Nat) : ℚ) / (D : ℚ) := by
    rw [hN]
    field_simp
    ring
  rw [hdiv, abs_le]
  unfold roundNearestEven
  simp only []
  split_ifs with h1 h2 h3
  · have h1q : 2 * ((N % D : Nat) : ℚ) < (D : ℚ) := by exact_mod_cast h1
    have : ((N % D : Nat) : ℚ) / (D : ℚ) ≤ 1 / 2 := by
      rw [div_le_iff₀ hDq]
      linarith
    have : 0 ≤ ((N % D : Nat) : ℚ) / (D : ℚ) := by positivity
    constructor <;> linarith
  · have h2q : (D : ℚ) < 2 * ((N % D : Nat) : ℚ) := by exact_mod_cast h2
    have ha : 1 / 2 ≤ ((N % D : Nat) : ℚ) / (D : ℚ) := by
      rw [le_div_iff₀ hDq]
      linarith
    have hb : ((N % D : Nat) : ℚ) / (D : ℚ) ≤ 1 := by
      rw [div_le_iff₀ hDq]
      linarith
    push_cast
    constructor <;> linarith
  · have he : 2 * (N % D) = D := by omega
    have heq : 2 * ((N % D : Nat) : ℚ) = (D : ℚ) := by exact_mod_cast he
    have ha : ((N % D : Nat) : ℚ) / (D : ℚ) = 1 / 2 := by
      rw [div_eq_iff (ne_of_gt hDq)]
      linarith
    rw [ha]
    constructor <;> linarith
  · have he : 2 * (N % D) = D := by omega
    have heq : 2 * ((N % D : Nat) : ℚ) = (D : ℚ) := by exact_mod_cast he
    have ha : ((N % D : Nat) : ℚ) / (D : ℚ) = 1 / 2 := by
      rw [div_eq_iff (ne_of_gt hDq)]
      linarith
    rw [ha]
    push_cast
    constructor <;> linarith

theorem rne_exact (J D : Nat) (hD : 0 < D) : roundNearestEven (J * D) D = J := by
  unfold roundNearestEven
  simp only [Nat.mul_mod_left, Nat.mul_div_cancel _ hD]
  simp [hD]

theorem log2Aux_spec (fuel n : Nat) (h1 : 1 ≤ n) (hf : n < 2 ^ fuel) :
    2 ^ log2Aux fuel n ≤ n ∧ n < 2 ^ (log2Aux fuel n + 1) := by
  induction fuel generalizing n with
  | zero =>
    simp at hf
    omega
  | succ fuel ih =>
    simp only [log2Aux]
    split_ifs with h2
    · constructor
      · simpa using h1
      · simpa using h2
    · have hd : n / 2 < 2 ^ fuel := by
        rw [Nat.div_lt_iff_lt_mul (by norm_num)]
        rw [pow_succ] at hf
        exact hf
      obtain ⟨ha, hb⟩ := ih (n / 2) (by omega) hd
      constructor
      · rw [pow_succ]
        omega
      · rw [pow_succ]
        omega

theorem log2_spec (n : Nat) (h1 : 1 ≤ n) : 2 ^ log2 n ≤ n ∧ n < 2 ^ (log2 n + 1) :=
  log2Aux_spec n n h1 (Nat.lt_two_pow n)

theorem floorLog2_le (n d : Nat) (hn : 0 < n) (hd : 0 < d) :
    (2 : ℚ) ^ floorLog2 n d ≤ (n : ℚ) / (d : ℚ) := by
  have hdq : (0 : ℚ) < (d : ℚ) := by exact_mod_cast hd
  obtain ⟨ha, _⟩ := log2_spec n hn
  obtain ⟨_, hb⟩ := log2_spec d hd
  have haq : (2 : ℚ) ^ log2 n ≤ (n : ℚ) := by exact_mod_cast ha
  have hbq : (d : ℚ) < 2 ^ (log2 d + 1) := by exact_mod_cast hb
  have hpb : (0 : ℚ) < 2 ^ log2 d := by positivity
  unfold floorLog2
  simp only []
  split_ifs with h
  · have hq : (d : ℚ) * 2 ^ log2 n ≤ (n : ℚ) * 2 ^ log2 d := by exact_mod_cast h
    rw [zpow_sub₀ (by norm_num), zpow_natCast, zpow_natCast, div_le_div_iff₀ hpb hdq]
    linarith
  · have e1 : ((log2 n : Nat) : Int) - ((log2 d : Nat) : Int) - 1
        = ((log2 n : Nat) : Int) - (((log2 d + 1 : Nat)) : Int) := by
      push_cast
      ring
    rw [e1, zpow_sub₀ (by norm_num), zpow_natCast, zpow_natCast,
      div_le_div_iff₀ (by positivity) hdq]
    have := mul_le_mul haq (le_of_lt hbq) (by positivity) (by positivity)
    linarith

theorem round_neg (n d : Nat) (hn : 0 < n) (hd : 0 < d)
    (hlt : (n : ℚ) / (d : ℚ) < 2 ^ 23) :
    max (floorLog2 n d - 23) (-149) < 0 ∧
    F32.round n d
      = F32.fin (roundNearestEven (n * 2 ^ (-(max (floorLog2 n d - 23) (-149))).toNat) d)
          (max (floorLog2 n d - 23) (-149)) := by
  have hle := floorLog2_le n d hn hd
  have h23 : (2 : ℚ) ^ floorLog2 n d < 2 ^ (23 : Int) := by
    have : ((2 : ℚ) ^ (23 : Int)) = 2 ^ 23 := by norm_num
    rw [this]
    exact lt_of_le_of_lt hle hlt
  have he : floorLog2 n d < 23 := (zpow_lt_zpow_iff_right₀ (by norm_num)).mp h23
  have hq : max (floorLog2 n d - 23) (-149) < 0 := max_lt (by omega) (by norm_num)
  refine ⟨hq, ?_⟩
  unfold F32.round
  simp only [Nat.ne_of_gt hn, if_false]
  rw [if_neg (not_le.mpr hq), if_neg (fun h => absurd h.1 (not_le.mpr hq))]

theorem round_err (n d : Nat) (hn : 0 < n) (hd : 0 < d)
    (hlt : (n : ℚ) / (d : ℚ) < 2 ^ 23) :
    ∃ m q, F32.round n d = F32.fin m q ∧
      |(F32.round n d).val - (n : ℚ) / (d : ℚ)| ≤ (n : ℚ) / (d : ℚ) / 2 ^ 24 + 1 / 2 ^ 150 := by
  obtain ⟨hq, hr⟩ := round_neg n d hn hd hlt
  have hle := floorLog2_le n d hn hd
  refine ⟨_, _, hr, ?_⟩
  rw [hr, F32.val, frac_val]
  generalize hQ : max (floorLog2 n d - 23) (-149) = q at hq ⊢
  obtain ⟨Q, rfl⟩ := Int.exists_eq_neg_ofNat (by omega : q ≤ 0)
  simp only [Int.neg_neg, Int.toNat_ofNat]
  have hdq : (0 : ℚ) < (d : ℚ) := by exact_mod_cast hd
  have hP : (0 : ℚ) < 2 ^ Q := by positivity
  have herr := rne_err (n * 2 ^ Q) d hd
  have hcast : ((n * 2 ^ Q : Nat) : ℚ) / (d : ℚ) = (n : ℚ) / (d : ℚ) * 2 ^ Q := by
    push_cast
    ring
  rw [hcast, abs_le] at herr
  have hz : (2 : ℚ) ^ (-(Q : Int)) = (2 ^ Q)⁻¹ := by
    rw [zpow_neg, zpow_natCast]
  rw [hz]
  have hhalf : (2 ^ Q : ℚ)⁻¹ / 2 ≤ (n : ℚ) / (d : ℚ) / 2 ^ 24 + 1 / 2 ^ 150 := by
    rcases max_choice (floorLog2 n d - 23) (-149) with hm | hm
    · rw [hm] at hQ
      have he : floorLog2 n d = 23 - (Q : Int) := by omega
      rw [he, zpow_sub₀ (by norm_num), zpow_natCast] at hle
      have h1 : (2 ^ Q : ℚ)⁻¹ ≤ (n : ℚ) / (d : ℚ) / 2 ^ 23 := by
        rw [le_div_iff₀ (by positivity), inv_mul_eq_div]
        have : ((2 : ℚ) ^ (23 : Int)) = 2 ^ 23 := by norm_num
        rw [this] at hle
        exact hle
      have h2 : (n : ℚ) / (d : ℚ) / 2 ^ 23 / 2 = (n : ℚ) / (d : ℚ) / 2 ^ 24 := by ring
      have h3 : (0 : ℚ) ≤ 1 / 2 ^ 150 := by positivity
      linarith
    · rw [hm] at hQ
      have hQ149 : Q = 149 := by omega
      subst hQ149
      have h3 : (0 : ℚ) ≤ (n : ℚ) / (d : ℚ) / 2 ^ 24 := by positivity
      have h4 : (2 ^ 149 : ℚ)⁻¹ / 2 = 1 / 2 ^ 150 := by norm_num
      linarith
  have hinv : (0 : ℚ) < (2 ^ Q : ℚ)⁻¹ := by positivity
  have hkey : ((roundNearestEven (n * 2 ^ Q) d : Nat) : ℚ) * (2 ^ Q)⁻¹ - (n : ℚ) / (d : ℚ)
      = (((roundNearestEven (n * 2 ^ Q) d : Nat) : ℚ) - (n : ℚ) / (d : ℚ) * 2 ^ Q)
          * (2 ^ Q)⁻¹ := by
    field_simp
    ring
  rw [hkey, abs_le]
  constructor
  · have := mul_le_mul_of_nonneg_right herr.1 (le_of_lt hinv)
    linarith
  · have := mul_le_mul_of_nonneg_right herr.2 (le_of_lt hinv)
    linarith

theorem round_int (J d : Nat) (hJ : 0 < J) (hJ23 : J < 2 ^ 23) (hd : 0 < d) :
    ∃ m q, F32.round (J * d) d = F32.fin m q ∧ (F32.frac m q).1 = J * (F32.frac m q).2 := by
  have hlt : ((J * d : Nat) : ℚ) / (d : ℚ) < 2 ^ 23 := by
    have hdq : (0 : ℚ) < (d : ℚ) := by exact_mod_cast hd
    push_cast
    rw [mul_div_assoc, div_self (ne_of_gt hdq), mul_one]
    exact_mod_cast hJ23
  obtain ⟨hq, hr⟩ := round_neg (J * d) d (Nat.mul_pos hJ hd) hd hlt
  refine ⟨_, _, hr, ?_⟩
  generalize max (floorLog2 (J * d) d - 23) (-149) = q at hq ⊢
  have hmul : J * d * 2 ^ (-q).toNat = (J * 2 ^ (-q).toNat) * d := by ring
  rw [hmul, rne_exact _ _ hd]
  unfold F32.frac
  rw [if_neg (not_le.mpr hq)]

theorem frac_fst_zero (e : Int) : (F32.frac 0 e).1 = 0 := by
  unfold F32.frac
  split_ifs <;> simp

theorem frac_fst_pos_of_val_pos (m : Nat) (e : Int) (h : 0 < (F32.fin m e).val) :
    0 < (F32.frac m e).1 := by
  rcases Nat.eq_zero_or_pos (F32.frac m e).1 with h0 | hpos
  · rw [F32.val, h0] at h
    simp at h
  · exact hpos

theorem trunc_val (m : Nat) (e : Int) :
    (F32.fin m e).trunc = some ⌊(F32.fin m e).val⌋₊ := by
  simp only [F32.trunc, F32.val]
  rw [Nat.floor_div_eq_div]

theorem ofNat_int (J : Nat) (hJ : 0 < J) (hJ23 : J < 2 ^ 23) : F32.IsInt (F32.ofNat J) J := by
  have h := round_int J 1 hJ hJ23 Nat.one_pos
  rw [Nat.mul_one] at h
  exact h

theorem mul_int (x y : F32) (J1 J2 : Nat) (hx : F32.IsInt x J1) (hy : F32.IsInt y J2)
    (h1 : 0 < J1) (h2 : 0 < J2) (h23 : J1 * J2 < 2 ^ 23) : F32.IsInt (F32.mul x y) (J1 * J2) := by
  obtain ⟨m1, e1, rfl, ha⟩ := hx
  obtain ⟨m2, e2, rfl, hb⟩ := hy
  have hmul : F32.mul (F32.fin m1 e1) (F32.fin m2 e2)
      = F32.round ((F32.frac m1 e1).1 * (F32.frac m2 e2).1)
          ((F32.frac m1 e1).2 * (F32.frac m2 e2).2) := rfl
  have hn : (F32.frac m1 e1).1 * (F32.frac m2 e2).1
      = (J1 * J2) * ((F32.frac m1 e1).2 * (F32.frac m2 e2).2) := by
    rw [ha, hb]
    ring
  rw [hmul, hn]
  exact round_int (J1 * J2) _ (Nat.mul_pos h1 h2) h23
    (Nat.mul_pos (frac_snd_pos m1 e1) (frac_snd_pos m2 e2))

theorem div_err (x y : F32) (k D : Nat) (hx : F32.IsInt x k) (hy : F32.IsInt y D)
    (hk : 0 < k) (hD : 0 < D) (hlt : (k : ℚ) / (D : ℚ) < 2 ^ 23) :
    ∃ m q, F32.div x y = F32.fin m q ∧
      |(F32.div x y).val - (k : ℚ) / (D : ℚ)| ≤ (k : ℚ) / (D : ℚ) / 2 ^ 24 + 1 / 2 ^ 150 := by
  obtain ⟨m1, e1, rfl, ha⟩ := hx
  obtain ⟨m2, e2, rfl, hb⟩ := hy
  have ha2 := frac_snd_pos m1 e1
  have hb2 := frac_snd_pos m2 e2
  have hm2 : m2 ≠ 0 := by
    rintro rfl
    rw [frac_fst_zero] at hb
    have := Nat.mul_pos hD hb2
    omega
  have hdiv : F32.div (F32.fin m1 e1) (F32.fin m2 e2)
      = F32.round ((F32.frac m1 e1).1 * (F32.frac m2 e2).2)
          ((F32.frac m1 e1).2 * (F32.frac m2 e2).1) := by
    simp only [F32.div, hm2, if_false]
  have hn : 0 < (F32.frac m1 e1).1 * (F32.frac m2 e2).2 := by
    rw [ha]
    exact Nat.mul_pos (Nat.mul_pos hk ha2) hb2
  have hd : 0 < (F32.frac m1 e1).2 * (F32.frac m2 e2).1 := by
    rw [hb]
    exact Nat.mul_pos ha2 (Nat.mul_pos hD hb2)
  have hratio : (((F32.frac m1 e1).1 * (F32.frac m2 e2).2 : Nat) : ℚ)
      / (((F32.frac m1 e1).2 * (F32.frac m2 e2).1 : Nat) : ℚ) = (k : ℚ) / (D : ℚ) := by
    rw [ha, hb]
    have h1 : ((F32.frac m1 e1).2 : ℚ) ≠ 0 := by exact_mod_cast Nat.ne_of_gt ha2
    have h2 : ((F32.frac m2 e2).2 : ℚ) ≠ 0 := by exact_mod_cast Nat.ne_of_gt hb2
    have h3 : (D : ℚ) ≠ 0 := by exact_mod_cast Nat.ne_of_gt hD
    push_cast
    field_simp
    ring
  have := round_err _ _ hn hd (by rw [hratio]; exact hlt)
  rw [hratio, ← hdiv] at this
  exact this

theorem mul_err (m1 : Nat) (e1 : Int) (y : F32) (J : Nat) (hy : F32.IsInt y J)
    (hpos : 0 < (F32.fin m1 e1).val) (hJ : 0 < J)
    (hlt : (F32.fin m1 e1).val * (J : ℚ) < 2 ^ 23) :
    ∃ m q, F32.mul (F32.fin m1 e1) y = F32.fin m q ∧
      |(F32.mul (F32.fin m1 e1) y).val - (F32.fin m1 e1).val * (J : ℚ)|
        ≤ (F32.fin m1 e1).val * (J : ℚ) / 2 ^ 24 + 1 / 2 ^ 150 := by
  obtain ⟨m2, e2, rfl, hb⟩ := hy
  have ha1 := frac_fst_pos_of_val_pos m1 e1 hpos
  have ha2 := frac_snd_pos m1 e1
  have hb2 := frac_snd_pos m2 e2
  have hmul : F32.mul (F32.fin m1 e1) (F32.fin m2 e2)
      = F32.round ((F32.frac m1 e1).1 * (F32.frac m2 e2).1)
          ((F32.frac m1 e1).2 * (F32.frac m2 e2).2) := rfl
  have hn : 0 < (F32.frac m1 e1).1 * (F32.frac m2 e2).1 := by
    rw [hb]
    exact Nat.mul_pos ha1 (Nat.mul_pos hJ hb2)
  have hd : 0 < (F32.frac m1 e1).2 * (F32.frac m2 e2).2 := Nat.mul_pos ha2 hb2
  have hratio : (((F32.frac m1 e1).1 * (F32.frac m2 e2).1 : Nat) : ℚ)
      / (((F32.frac m1 e1).2 * (F32.frac m2 e2).2 : Nat) : ℚ)
      = (F32.fin m1 e1).val * (J : ℚ) := by
    rw [hb, F32.val]
    have h1 : ((F32.frac m1 e1).2 : ℚ) ≠ 0 := by exact_mod_cast Nat.ne_of_gt ha2
    have h2 : ((F32.frac m2 e2).2 : ℚ) ≠ 0 := by exact_mod_cast Nat.ne_of_gt hb2
    push_cast
    field_simp
    ring
  have := round_err _ _ hn hd (by rw [hratio]; exact hlt)
  rw [hratio, ← hmul] at this
  exact this

theorem floor_near (v : ℚ) (N D : Nat) (hD : 0 < D)
    (h : |v - (N : ℚ) / (D : ℚ)| < 1 / (D : ℚ)) :
    ⌊v⌋₊ = N / D ∨ (D ∣ N ∧ ⌊v⌋₊ + 1 = N / D) := by
  have hDq : (0 : ℚ) < (D : ℚ) := by exact_mod_cast hD
  have hdm := Nat.div_add_mod N D
  have hlt := Nat.mod_lt N hD
  have hN : (N : ℚ) = (D : ℚ) * ((N / D : Nat) : ℚ) + ((N % D : Nat) : ℚ) := by
    exact_mod_cast hdm.symm
  have hdiv : (N : ℚ) / (D : ℚ) = ((N / D : Nat) : ℚ) + ((N % D : Nat) : ℚ) / (D : ℚ) := by
    rw [hN]
    field_simp
    ring
  rw [hdiv, abs_lt] at h
  obtain ⟨hlo, hhi⟩ := h
  have hone : (D : ℚ) / (D : ℚ) = 1 := div_self (ne_of_gt hDq)
  rcases Nat.eq_zero_or_pos (N % D) with h0 | hpos
  · rw [h0] at hlo hhi
    simp only [Nat.cast_zero, zero_div, add_zero] at hlo hhi
    have h1D : 1 / (D : ℚ) ≤ 1 := by
      rw [div_le_iff₀ hDq]
      have : (1 : ℚ) ≤ (D : ℚ) := by exact_mod_cast hD
      linarith
    rcases Nat.eq_zero_or_pos (N / D) with hz | hp
    · left
      rw [hz] at hhi ⊢
      rw [Nat.floor_eq_zero]
      simp only [Nat.cast_zero] at hhi
      linarith
    · by_cases hv : ((N / D : Nat) : ℚ) ≤ v
      · left
        rw [Nat.floor_eq_iff (by linarith [(Nat.cast_nonneg (N / D) : (0 : ℚ) ≤ _)])]
        constructor <;> linarith
      · right
        refine ⟨Nat.dvd_of_mod_eq_zero h0, ?_⟩
        obtain ⟨j, hj⟩ : ∃ j, N / D = j + 1 := ⟨N / D - 1, by omega⟩
        rw [hj] at hlo hhi hv ⊢
        push_cast at hlo hhi hv
        have hfl : ⌊v⌋₊ = j := by
          rw [Nat.floor_eq_iff (by linarith [(Nat.cast_nonneg j : (0 : ℚ) ≤ _)])]
          constructor <;> linarith
        rw [hfl]
  · left
    have hr1 : (1 : ℚ) ≤ ((N % D : Nat) : ℚ) := by exact_mod_cast hpos
    have hr2 : ((N % D : Nat) : ℚ) + 1 ≤ (D : ℚ) := by exact_mod_cast hlt
    have ha : 1 / (D : ℚ) ≤ ((N % D : Nat) : ℚ) / (D : ℚ) :=
      div_le_div_of_nonneg_right hr1 (le_of_lt hDq)
    have hb : ((N % D : Nat) : ℚ) / (D : ℚ) + 1 / (D : ℚ) ≤ 1 := by
      rw [← add_div, div_le_iff₀ hDq]
      linarith
    rw [Nat.floor_eq_iff (by linarith [(Nat.cast_nonneg (N / D) : (0 : ℚ) ≤ _)])]
    constructor <;> linarith

theorem updates_per_min_eq : UPDATES_PER_MIN = 240 := by decide

theorem round_zero (d : Nat) : F32.round 0 d = F32.fin 0 0 := by
  simp [F32.round]

theorem rawWpm_zero (c : Nat) (hc1 : 1 ≤ c) (hc : c ≤ 255) :
    (rawWpm 0 c).trunc = some 0 := by
  have hden : F32.IsInt (F32.mul CHARS_PER_WORD (F32.ofNat c)) (5 * c) :=
    mul_int _ _ 5 c (ofNat_int 5 (by norm_num) (by norm_num))
      (ofNat_int c (by omega) (by norm_num; omega)) (by norm_num) (by omega)
      (by norm_num; omega)
  obtain ⟨md, qd, hd, hfr⟩ := hden
  have hmd : md ≠ 0 := by
    rintro rfl
    rw [frac_fst_zero] at hfr
    have := Nat.mul_pos (show 0 < 5 * c by omega) (frac_snd_pos 0 qd)
    omega
  obtain ⟨mu, qu, hu, _⟩ := ofNat_int UPDATES_PER_MIN (by decide) (by decide)
  have h0 : F32.ofNat 0 = F32.fin 0 0 := round_zero 1
  unfold rawWpm
  rw [hd, hu, h0]
  have hdiv : F32.div (F32.fin 0 0) (F32.fin md qd) = F32.fin 0 0 := by
    simp only [F32.div, hmd, if_false, frac_fst_zero, Nat.zero_mul, round_zero]
  rw [hdiv]
  have hmul : F32.mul (F32.fin 0 0) (F32.fin mu qu) = F32.fin 0 0 := by
    simp only [F32.mul, frac_fst_zero, Nat.zero_mul, round_zero]
  rw [hmul]
  simp [F32.trunc, frac_fst_zero]

theorem rawWpm_trunc_spec (k c : Nat) (hc1 : 1 ≤ c) (hc : c ≤ 255)
    (he : exactFloor k c ≤ 255) :
    ∃ t, (rawWpm k c).trunc = some t ∧
      (t = exactFloor k c ∨ (5 * c ∣ k * UPDATES_PER_MIN ∧ t + 1 = exactFloor k c)) := by
  rcases Nat.eq_zero_or_pos k with hk0 | hk
  · subst hk0
    refine ⟨0, rawWpm_zero c hc1 hc, Or.inl ?_⟩
    simp [exactFloor]
  have hU := updates_per_min_eq
  unfold exactFloor at he ⊢
  rw [hU] at he ⊢
  have hD : 0 < 5 * c := by omega
  have hkN : k * 240 < 256 * (5 * c) := by
    have := (Nat.div_lt_iff_lt_mul hD).mp (show k * 240 / (5 * c) < 256 by omega)
    linarith
  have hk23 : k < 2 ^ 23 := by
    norm_num
    omega
  have hden : F32.IsInt (F32.mul CHARS_PER_WORD (F32.ofNat c)) (5 * c) :=
    mul_int _ _ 5 c (ofNat_int 5 (by norm_num) (by norm_num))
      (ofNat_int c (by omega) (by norm_num; omega)) (by norm_num) (by omega)
      (by norm_num; omega)
  have hcq : (1 : ℚ) ≤ (c : ℚ) := by exact_mod_cast hc1
  have hcq2 : (c : ℚ) ≤ 255 := by exact_mod_cast hc
  have hkq : (1 : ℚ) ≤ (k : ℚ) := by exact_mod_cast hk
  have hDq : (0 : ℚ) < ((5 * c : Nat) : ℚ) := by exact_mod_cast hD
  have hDq2 : ((5 * c : Nat) : ℚ) ≤ 1275 := by
    push_cast
    linarith
  have hr240 : (k : ℚ) / ((5 * c : Nat) : ℚ) * 240 < 256 := by
    rw [div_mul_eq_mul_div, div_lt_iff₀ hDq]
    exact_mod_cast hkN
  have hrlo : 1 / 1275 ≤ (k : ℚ) / ((5 * c : Nat) : ℚ) := by
    rw [div_le_div_iff₀ (by norm_num) hDq]
    linarith
  obtain ⟨m1, q1, hx1, herr1⟩ := div_err (F32.ofNat k) _ k (5 * c) (ofNat_int k hk hk23) hden hk hD
    (by linarith)
  rw [hx1, abs_le] at herr1
  have htiny : (1 : ℚ) / 2 ^ 150 ≤ 1 / 2 ^ 40 :=
    one_div_le_one_div_of_le (by positivity) (pow_le_pow_right₀ (by norm_num) (by norm_num))
  have e24 : (2 : ℚ) ^ 24 = 16777216 := by norm_num
  have e40 : (2 : ℚ) ^ 40 = 1099511627776 := by norm_num
  have e23 : (2 : ℚ) ^ 23 = 8388608 := by norm_num
  rw [e40] at htiny
  rw [e24] at herr1
  generalize hr : (k : ℚ) / ((5 * c : Nat) : ℚ) = r at herr1 hr240 hrlo
  generalize ht : (1 : ℚ) / 2 ^ 150 = tiny at herr1 htiny
  have hpos : 0 < (F32.fin m1 q1).val := by
    linarith [herr1.1]
  obtain ⟨m2, q2, hx2, herr2⟩ := mul_err m1 q1 (F32.ofNat UPDATES_PER_MIN) 240
    (by rw [hU]; exact ofNat_int 240 (by norm_num) (by norm_num)) hpos (by norm_num)
    (by rw [e23]; push_cast; linarith [herr1.2])
  rw [hx2, abs_le, e24, ht] at herr2
  push_cast at herr2
  have htr : (rawWpm k c).trunc = some ⌊(F32.fin m2 q2).val⌋₊ := by
    unfold rawWpm
    rw [hx1, hx2, trunc_val]
  refine ⟨_, htr, ?_⟩
  apply floor_near _ _ _ hD
  have hND : ((k * 240 : Nat) : ℚ) / ((5 * c : Nat) : ℚ) = r * 240 := by
    rw [← hr]
    push_cast
    ring
  have h1D : 1 / 1275 ≤ 1 / ((5 * c : Nat) : ℚ) := by
    rw [div_le_div_iff₀ (by norm_num) hDq]
    linarith
  rw [hND, abs_lt]
  generalize (F32.fin m1 q1).val = v1 at herr1 herr2 hpos
  generalize (F32.fin m2 q2).val = v2 at herr2
  generalize (1 : ℚ) / ((5 * c : Nat) : ℚ) = oneD at h1D
  constructor
  · linarith [herr1.1, herr1.2, herr2.1, herr2.2]
  · linarith [herr1.1, herr1.2, herr2.1, herr2.2]

theorem rawWpm_trunc (k c : Nat) (hc1 : 1 ≤ c) (hc : c ≤ 255)
    (he : exactFloor k c ≤ 255) :
    (rawWpm k c).trunc = some (rawTrunc k c) ∧
    (rawTrunc k c = exactFloor k c ∨
      (5 * c ∣ k * UPDATES_PER_MIN ∧ rawTrunc k c + 1 = exactFloor k c)) := by
  obtain ⟨t, ht, hor⟩ := rawWpm_trunc_spec k c hc1 hc he
  have hrt : rawTrunc k c = t := by simp [rawTrunc, ht]
  rw [hrt]
  exact ⟨ht, hor⟩

theorem handler_wpm_of_range (oor : F32 → Nat) (s : State)
    (hc : s.wpm_update_counter ≤ 254)
    (he : exactFloor s.key_pressed_count (s.wpm_update_counter + 1) ≤ 255) :
    (wpm_work_handler oor s).st.wpm_state
      = floorThreshold (rawTrunc s.key_pressed_count (s.wpm_update_counter + 1)) := by
  have hmod : (s.wpm_update_counter + 1) % 2 ^ 8 = s.wpm_update_counter + 1 :=
    Nat.mod_eq_of_lt (by omega)
  obtain ⟨ht, hor⟩ :=
    rawWpm_trunc s.key_pressed_count (s.wpm_update_counter + 1) (by omega) (by omega) he
  have hle : rawTrunc s.key_pressed_count (s.wpm_update_counter + 1) ≤ 255 := by
    rcases hor with h | ⟨_, h⟩ <;> omega
  rw [handler_wpm, hmod, newWpm, toU8_of_trunc oor _ _ ht hle]

theorem fresh_eq : fresh = { wpm_state := 0, last_wpm_state := 0, wpm_update_counter := 0
                             key_pressed_count := 0 } := by
  decide

theorem releases_fresh (kc : Nat → Nat) (N : Nat) :
    releases kc N fresh = { wpm_state := 0, last_wpm_state := 0, wpm_update_counter := 0
                            key_pressed_count := N % 2 ^ 16 } := by
  rw [releases_keys kc N fresh (by decide), fresh_eq]
  simp

/-! ## Runs of ticks and of stimuli -/

theorem ticks_succ (oor : F32 → Nat) (n : Nat) (s : State) :
    ticks oor (n + 1) s = ticks oor n (wpm_work_handler oor s).st := rfl

theorem quiet_ticks (oor : F32 → Nat) (n : Nat) (s : State)
    (hl : s.last_wpm_state = 0)
    (hz : ∀ i, 1 ≤ i → i ≤ n → (ticks oor i s).wpm_state = 0) :
    tickLog oor n s = List.replicate n [] := by
  induction n generalizing s with
  | zero => rfl
  | succ n ih =>
    have h1 : (wpm_work_handler oor s).st.wpm_state = 0 := hz 1 (Nat.le_refl 1) (by omega)
    have hr := handler_raised oor s
    have hl1 := handler_last oor s
    rw [if_neg (by simp [h1, hl])] at hr hl1
    rw [tickLog, hr, List.replicate_succ]
    rw [ih (wpm_work_handler oor s).st (by rw [hl1, hl])
      (fun i hi1 hin => by
        have := hz (i + 1) (by omega) (by omega)
        rwa [ticks_succ] at this)]

theorem idle_tick (oor : F32 → Nat) (s : State)
    (hl : s.last_wpm_state = 0) (hk : s.key_pressed_count = 0)
    (hc : s.wpm_update_counter ≤ 39) :
    (wpm_work_handler oor s).st.wpm_state = 0 ∧
    (wpm_work_handler oor s).raised = [] ∧
    (wpm_work_handler oor s).st.last_wpm_state = 0 ∧
    (wpm_work_handler oor s).st.key_pressed_count = 0 ∧
    (wpm_work_handler oor s).st.wpm_update_counter ≤ 39 := by
  have he : exactFloor s.key_pressed_count (s.wpm_update_counter + 1) ≤ 255 := by
    simp [hk, exactFloor]
  have hw : (wpm_work_handler oor s).st.wpm_state = 0 := by
    rw [handler_wpm_of_range oor s (by omega) he]
    have ht : rawTrunc s.key_pressed_count (s.wpm_update_counter + 1) = 0 := by
      have h0 : exactFloor s.key_pressed_count (s.wpm_update_counter + 1) = 0 := by
        simp [hk, exactFloor]
      rcases (rawWpm_trunc s.key_pressed_count (s.wpm_update_counter + 1) (by omega)
        (by omega) he).2 with h | ⟨_, h⟩ <;> omega
    rw [ht]
    decide
  have hr := handler_raised oor s
  have hl1 := handler_last oor s
  rw [if_neg (by simp [hw, hl])] at hr hl1
  have hcnt := handler_counter oor s
  have hkeys := handler_keys oor s
  have hmod : (s.wpm_update_counter + 1) % 2 ^ 8 = s.wpm_update_counter + 1 :=
    Nat.mod_eq_of_lt (by omega)
  have hR : RESET_UPDATES_COUNT = 40 := by decide
  rw [hmod, hR] at hcnt hkeys
  refine ⟨hw, hr, by rw [hl1, hl], ?_, ?_⟩
  · rw [hkeys]
    split_ifs
    · rfl
    · exact hk
  · rw [hcnt]
    split_ifs <;> omega

theorem idle_ticks (oor : F32 → Nat) (n : Nat) (s : State)
    (hl : s.last_wpm_state = 0) (hk : s.key_pressed_count = 0)
    (hc : s.wpm_update_counter ≤ 39) :
    (1 ≤ n → (ticks oor n s).wpm_state = 0) ∧ tickLog oor n s = List.replicate n [] := by
  induction n generalizing s with
  | zero => exact ⟨fun h => absurd h (by omega), rfl⟩
  | succ n ih =>
    obtain ⟨hw, hr, hl1, hk1, hc1⟩ := idle_tick oor s hl hk hc
    obtain ⟨ihw, ihlog⟩ := ih (wpm_work_handler oor s).st hl1 hk1 hc1
    refine ⟨fun _ => ?_, ?_⟩
    · rw [ticks_succ]
      rcases Nat.eq_zero_or_pos n with h0 | hpos
      · subst h0
        exact hw
      · exact ihw hpos
    · rw [tickLog, hr, ihlog, List.replicate_succ]

theorem listener_counter (s : State) (eh : zmk_event_t) :
    (wpm_event_listener s eh).st.wpm_update_counter = s.wpm_update_counter := by
  unfold wpm_event_listener
  split
  · split_ifs <;> rfl
  · rfl

theorem run_counter (oor : F32 → Nat) (tr : List Input) (s : State)
    (h : s.wpm_update_counter + countTicks tr ≤ 39) :
    (run oor s tr).wpm_update_counter = s.wpm_update_counter + countTicks tr := by
  induction tr generalizing s with
  | nil => simp [run, countTicks]
  | cons x tr ih =>
    cases x with
    | event eh =>
      have hct : countTicks (Input.event eh :: tr) = countTicks tr := by
        simp [countTicks, List.count_cons]
      rw [hct] at h ⊢
      have := ih (wpm_event_listener s eh).st (by rw [listener_counter]; exact h)
      rw [listener_counter] at this
      simpa [run, step] using this
    | tick =>
      have hct : countTicks (Input.tick :: tr) = countTicks tr + 1 := by
        simp [countTicks, List.count_cons]
      rw [hct] at h ⊢
      have hcnt := handler_counter oor s
      have hmod : (s.wpm_update_counter + 1) % 2 ^ 8 = s.wpm_update_counter + 1 :=
        Nat.mod_eq_of_lt (by omega)
      have hR : RESET_UPDATES_COUNT = 40 := by decide
      rw [hmod, hR, if_neg (by omega)] at hcnt
      have := ih (wpm_work_handler oor s).st (by rw [hcnt]; omega)
      rw [hcnt] at this
      have hrun : run oor s (Input.tick :: tr) = run oor (wpm_work_handler oor s).st tr := by
        simp [run, step]
      rw [hrun, this]
      omega

theorem handler_ret (oor : F32 → Nat) (s : State) : (wpm_work_handler oor s).ret = 0 := by
  unfold wpm_work_handler
  simp only []
  split_ifs <;> rfl

theorem tick_nonzero (oor : F32 → Nat) (s : State) (w : Nat)
    (hc : s.wpm_update_counter ≤ 38)
    (he : exactFloor s.key_pressed_count (s.wpm_update_counter + 1) ≤ 255)
    (hw : floorThreshold (rawTrunc s.key_pressed_count (s.wpm_update_counter + 1)) = w)
    (hnz : w ≠ 0) :
    wpm_work_handler oor s
      = { st := { wpm_state := w, last_wpm_state := w
                  wpm_update_counter := s.wpm_update_counter + 1
                  key_pressed_count := s.key_pressed_count }
          raised := [{ state := w }], ret := 0 } := by
  have h1 : (wpm_work_handler oor s).st.wpm_state = w := by
    rw [handler_wpm_of_range oor s (by omega) he, hw]
  have h2 := handler_last oor s
  have h3 := handler_raised oor s
  rw [h1, if_pos (Or.inl hnz)] at h2 h3
  have hmod : (s.wpm_update_counter + 1) % 2 ^ 8 = s.wpm_update_counter + 1 :=
    Nat.mod_eq_of_lt (by omega)
  have hR : RESET_UPDATES_COUNT = 40 := by decide
  have h4 := handler_counter oor s
  have h5 := handler_keys oor s
  rw [hmod, hR, if_neg (by omega)] at h4 h5
  have h6 := handler_ret oor s
  have eta : wpm_work_handler oor s
      = { st := { wpm_state := (wpm_work_handler oor s).st.wpm_state
                  last_wpm_state := (wpm_work_handler oor s).st.last_wpm_state
                  wpm_update_counter := (wpm_work_handler oor s).st.wpm_update_counter
                  key_pressed_count := (wpm_work_handler oor s).st.key_pressed_count }
          raised := (wpm_work_handler oor s).raised, ret := (wpm_work_handler oor s).ret } := rfl
  rw [eta, h1, h2, h3, h4, h5, h6]

theorem handler_last_eq (oor : F32 → Nat) (s : State) :
    (wpm_work_handler oor s).st.last_wpm_state = (wpm_work_handler oor s).st.wpm_state := by
  have hl := handler_last oor s
  by_cases h : (wpm_work_handler oor s).st.wpm_state ≠ 0 ∨ s.last_wpm_state ≠ 0
  · rw [if_pos h] at hl
    exact hl
  · rw [if_neg h] at hl
    rw [hl]
    have h1 : (wpm_work_handler oor s).st.wpm_state = 0 := by
      by_contra hne
      exact h (Or.inl hne)
    have h2 : s.last_wpm_state = 0 := by
      by_contra hne
      exact h (Or.inr hne)
    rw [h1, h2]

theorem listener_frame (s : State) (eh : zmk_event_t) :
    (wpm_event_listener s eh).st.wpm_state = s.wpm_state ∧
    (wpm_event_listener s eh).st.last_wpm_state = s.last_wpm_state := by
  unfold wpm_event_listener
  split
  · split_ifs <;> exact ⟨rfl, rfl⟩
  · exact ⟨rfl, rfl⟩

theorem run_last_eq (oor : F32 → Nat) (tr : List Input) (s : State)
    (h : s.last_wpm_state = s.wpm_state) :
    (run oor s tr).last_wpm_state = (run oor s tr).wpm_state := by
  induction tr generalizing s with
  | nil => exact h
  | cons x tr ih =>
    cases x with
    | event eh =>
      have hf := listener_frame s eh
      exact ih (wpm_event_listener s eh).st (by rw [hf.1, hf.2]; exact h)
    | tick => exact ih (wpm_work_handler oor s).st (handler_last_eq oor s)

theorem run_counter_lt (oor : F32 → Nat) (tr : List Input) (s : State)
    (h : s.wpm_update_counter < 40) : (run oor s tr).wpm_update_counter < 40 := by
  induction tr generalizing s with
  | nil => exact h
  | cons x tr ih =>
    cases x with
    | event eh => exact ih (wpm_event_listener s eh).st (by rw [listener_counter]; exact h)
    | tick =>
      refine ih (wpm_work_handler oor s).st ?_
      have hR : RESET_UPDATES_COUNT = 40 := by decide
      rw [handler_counter, hR, Nat.mod_eq_of_lt (by omega : s.wpm_update_counter + 1 < 2 ^ 8)]
      split_ifs <;> omega

theorem floorThreshold_mono (a b : Nat) (h : a ≤ b) : floorThreshold a ≤ floorThreshold b := by
  unfold floorThreshold WPM_ZERO_THRESHOLD
  split_ifs <;> omega

theorem exactFloor_anti (k c1 c2 : Nat) (h1 : 1 ≤ c1) (h : c1 ≤ c2) :
    exactFloor k c2 ≤ exactFloor k c1 := by
  unfold exactFloor
  exact Nat.div_le_div_left (by omega) (by omega)

theorem rawTrunc_anti (k c1 c2 : Nat) (h1 : 1 ≤ c1) (h : c1 ≤ c2) (h2 : c2 ≤ 255)
    (he : exactFloor k c1 ≤ 255) : rawTrunc k c2 ≤ rawTrunc k c1 := by
  rcases Nat.eq_or_lt_of_le h with heq | hlt
  · rw [heq]
  have hanti := exactFloor_anti k c1 c2 h1 h
  have hle2 : rawTrunc k c2 ≤ exactFloor k c2 := by
    rcases (rawWpm_trunc k c2 (by omega) h2 (by omega)).2 with h | ⟨_, h⟩ <;> omega
  rcases (rawWpm_trunc k c1 h1 (by omega) he).2 with h | ⟨hdvd, h⟩
  · omega
  · have hpos : 1 ≤ exactFloor k c1 := by omega
    have hstrict : exactFloor k c2 < exactFloor k c1 := by
      unfold exactFloor at hpos ⊢
      obtain ⟨e, hN⟩ := hdvd
      have he1 : k * UPDATES_PER_MIN / (5 * c1) = e := by
        rw [hN, Nat.mul_div_cancel_left e (by omega)]
      rw [he1] at hpos ⊢
      rw [Nat.div_lt_iff_lt_mul (by omega), hN, Nat.mul_comm]
      exact Nat.mul_lt_mul_of_pos_left (by omega) (by omega)
    omega

/-! ## The claims -/

/-- C1, as stated, fails: the specification's reading for ten key releases
before the first tick is 480, but for no behaviour of the out-of-range
conversion does `zmk_wpm_get_state` return 480 after that tick, nor does the
tick raise a notification carrying 480, since `wpm_state` holds eight bits. -/
theorem first_tick_ten_releases_not_480 :
    floorThreshold (10 * UPDATES_PER_MIN / 5) = 480 ∧
    ¬ ∃ (oor : F32 → Nat) (kc : Nat → Nat),
      (zmk_wpm_get_state (wpm_work_handler oor (releases kc 10 fresh)).st).ret = 480 ∨
      { state := 480 } ∈ (wpm_work_handler oor (releases kc 10 fresh)).raised := by
  refine ⟨by decide, ?_⟩
  rintro ⟨oor, kc, h⟩
  have hle := newWpm_le oor (releases kc 10 fresh).key_pressed_count
    (((releases kc 10 fresh).wpm_update_counter + 1) % 2 ^ 8)
  rw [← handler_wpm] at hle
  rcases h with h | h
  · simp only [zmk_wpm_get_state] at h
    omega
  · rw [handler_raised] at h
    split_ifs at h
    · rw [List.mem_singleton, zmk_wpm_state_changed.mk.injEq] at h
      omega
    · exact absurd h (List.not_mem_nil _)

/-- C1, amended: after `N` key releases and one tick from the freshly started
state the tick counter is 1 and the value returned by `zmk_wpm_get_state` is
at most 255, and any notification the tick raises carries the stored value;
when `N ≤ 5` (so that `N / 5 * 240` fits in eight bits) the value is the
thresholded `N / 5 * 240`, and for `1 ≤ N` it is the one notification
published. -/
theorem first_tick_reading (oor : F32 → Nat) (kc : Nat → Nat) (N : Nat) :
    (wpm_work_handler oor (releases kc N fresh)).st.wpm_update_counter = 1 ∧
    (zmk_wpm_get_state (wpm_work_handler oor (releases kc N fresh)).st).ret ≤ 255 ∧
    (∀ e ∈ (wpm_work_handler oor (releases kc N fresh)).raised,
      e.state = (wpm_work_handler oor (releases kc N fresh)).st.wpm_state) ∧
    (N ≤ 5 →
      (zmk_wpm_get_state (wpm_work_handler oor (releases kc N fresh)).st).ret
        = (floorThreshold (N * UPDATES_PER_MIN / 5) : Nat) ∧
      (1 ≤ N → (wpm_work_handler oor (releases kc N fresh)).raised
        = [{ state := floorThreshold (N * UPDATES_PER_MIN / 5) }])) := by
  refine ⟨?_, ?_, ?_, ?_⟩
  · rw [handler_counter, releases_fresh]
    simp [RESET_UPDATES_COUNT, WPM_RESET_INTERVAL_SECONDS, UPDATES_PER_SECOND,
      WPM_UPDATE_INTERVAL_MS]
  · have hle := newWpm_le oor (releases kc N fresh).key_pressed_count
      (((releases kc N fresh).wpm_update_counter + 1) % 2 ^ 8)
    rw [← handler_wpm] at hle
    simp only [zmk_wpm_get_state]
    omega
  · intro e he
    rw [handler_raised] at he
    split_ifs at he
    · rw [List.mem_singleton] at he
      rw [he]
    · exact absurd he (List.not_mem_nil e)
  · intro hN
    have hmod : N % 2 ^ 16 = N := Nat.mod_eq_of_lt (by omega)
    have hw : (wpm_work_handler oor (releases kc N fresh)).st.wpm_state
        = floorThreshold (N * UPDATES_PER_MIN / 5) := by
      rw [releases_fresh, hmod]
      rw [handler_wpm_of_range oor _ (by simp) (by simp only []; interval_cases N <;> decide)]
      simp only []
      interval_cases N <;> decide
    refine ⟨by simp only [zmk_wpm_get_state, hw], ?_⟩
    intro h1
    rw [handler_raised, hw]
    have hnz : floorThreshold (N * UPDATES_PER_MIN / 5) ≠ 0 := by
      interval_cases N <;> decide
    simp [hnz]

/-- Instance of `first_tick_reading` at five key releases: the reading is 240. -/
theorem first_tick_reading_witness :
    (5 ≤ 5) ∧
    (zmk_wpm_get_state (wpm_work_handler oorLowByte (releases (fun _ => 4) 5 fresh)).st).ret
      = 240 :=
  ⟨Nat.le_refl 5, ((first_tick_reading oorLowByte (fun _ => 4) 5).2.2.2 (Nat.le_refl 5)).1⟩

/-- C2, as stated, fails: with `tickCount = 3` and 21 key releases the exact
value of `(21 / (5 * 4)) * 240` is 252, within eight bits, yet the handler
stores 251, because the quotient `21 / 20` is rounded down in single
precision before it is multiplied by 240. -/
theorem exact_formula_fails_at_21_over_4 :
    exactFloor 21 4 = 252 ∧
    ∀ oor : F32 → Nat,
      (wpm_work_handler oor { wpm_state := 0, last_wpm_state := 0, wpm_update_counter := 3
                              key_pressed_count := 21 }).st.wpm_state = 251 := by
  refine ⟨by decide, ?_⟩
  intro oor
  rw [handler_wpm_of_range oor _ (by decide) (by decide)]
  decide

/-- C2, amended: for every state with `tickCount ≤ 39` and key count `k`,
writing `c = tickCount + 1`, if the exact floor of `(k / (5 * c)) * 240` is at
most 255 then the integral part `t` of the single-precision value of the
expression is that floor, or one less than it in a case where the exact value
is an integer, and after `wpm_work_handler` `currentWpm` is 0 when `t < 5`
and `t` otherwise. -/
theorem handler_reading_in_range (oor : F32 → Nat) (s : State)
    (hc : s.wpm_update_counter ≤ 39)
    (he : exactFloor s.key_pressed_count (s.wpm_update_counter + 1) ≤ 255) :
    (rawWpm s.key_pressed_count (s.wpm_update_counter + 1)).trunc
      = some (rawTrunc s.key_pressed_count (s.wpm_update_counter + 1)) ∧
    (rawTrunc s.key_pressed_count (s.wpm_update_counter + 1)
        = exactFloor s.key_pressed_count (s.wpm_update_counter + 1) ∨
      (5 * (s.wpm_update_counter + 1) ∣ s.key_pressed_count * UPDATES_PER_MIN ∧
        rawTrunc s.key_pressed_count (s.wpm_update_counter + 1) + 1
          = exactFloor s.key_pressed_count (s.wpm_update_counter + 1))) ∧
    (wpm_work_handler oor s).st.wpm_state
      = (if rawTrunc s.key_pressed_count (s.wpm_update_counter + 1) < 5 then 0
         else rawTrunc s.key_pressed_count (s.wpm_update_counter + 1)) :=
  ⟨(rawWpm_trunc _ _ (by omega) (by omega) he).1,
    (rawWpm_trunc _ _ (by omega) (by omega) he).2,
    handler_wpm_of_range oor s (by omega) he⟩

/-- Instance of `handler_reading_in_range`: three key releases at the first
tick read 144. -/
theorem handler_reading_in_range_witness :
    (0 ≤ 39) ∧ exactFloor 3 (0 + 1) ≤ 255 ∧
    (wpm_work_handler oorLowByte { wpm_state := 0, last_wpm_state := 0, wpm_update_counter := 0
                                   key_pressed_count := 3 }).st.wpm_state = 144 :=
  ⟨by decide, by decide,
    (handler_reading_in_range oorLowByte
      { wpm_state := 0, last_wpm_state := 0, wpm_update_counter := 0, key_pressed_count := 3 }
      (by decide) (by decide)).2.2.trans (by decide)⟩

/-- C3: if the raw value a tick computes is below the zero threshold 5 then
`currentWpm` after the tick is 0; and after any tick `currentWpm` is none of
1, 2, 3, 4. -/
theorem zero_suppression (oor : F32 → Nat) (s : State) :
    (F32.ltNat (rawWpm s.key_pressed_count ((s.wpm_update_counter + 1) % 2 ^ 8))
        WPM_ZERO_THRESHOLD →
      (wpm_work_handler oor s).st.wpm_state = 0) ∧
    (wpm_work_handler oor s).st.wpm_state ≠ 1 ∧
    (wpm_work_handler oor s).st.wpm_state ≠ 2 ∧
    (wpm_work_handler oor s).st.wpm_state ≠ 3 ∧
    (wpm_work_handler oor s).st.wpm_state ≠ 4 := by
  have hs := newWpm_not_small oor s.key_pressed_count ((s.wpm_update_counter + 1) % 2 ^ 8)
  rw [← handler_wpm] at hs
  refine ⟨?_, by omega, by omega, by omega, by omega⟩
  intro hlt
  obtain ⟨t, ht, h5⟩ := trunc_of_ltNat _ _ hlt
  unfold WPM_ZERO_THRESHOLD at h5
  rw [handler_wpm, newWpm, toU8_of_trunc oor _ t ht (by omega)]
  simp [floorThreshold, WPM_ZERO_THRESHOLD, h5]

/-- Instance of `zero_suppression`: one key release at the tenth tick gives a
raw value below 5, and the reading is 0. -/
theorem zero_suppression_witness :
    F32.ltNat (rawWpm 1 ((9 + 1) % 2 ^ 8)) WPM_ZERO_THRESHOLD ∧
    (wpm_work_handler oorLowByte { wpm_state := 5, last_wpm_state := 5, wpm_update_counter := 9
                                   key_pressed_count := 1 }).st.wpm_state = 0 :=
  ⟨by decide,
    (zero_suppression oorLowByte
      { wpm_state := 5, last_wpm_state := 5, wpm_update_counter := 9, key_pressed_count := 1 }).1
      (by decide)⟩

/-- C4: a tick raises a notification exactly when the new `currentWpm` is
nonzero or the previous `lastPublishedWpm` is nonzero; it then raises exactly
one, carrying the new `currentWpm`, and sets `lastPublishedWpm` to it;
otherwise it raises none and leaves `lastPublishedWpm` unchanged. -/
theorem publish_policy (oor : F32 → Nat) (s : State) :
    ((wpm_work_handler oor s).raised ≠ [] ↔
      ((wpm_work_handler oor s).st.wpm_state ≠ 0 ∨ s.last_wpm_state ≠ 0)) ∧
    (((wpm_work_handler oor s).st.wpm_state ≠ 0 ∨ s.last_wpm_state ≠ 0) →
      (wpm_work_handler oor s).raised = [{ state := (wpm_work_handler oor s).st.wpm_state }] ∧
      (wpm_work_handler oor s).st.last_wpm_state = (wpm_work_handler oor s).st.wpm_state) ∧
    (¬ ((wpm_work_handler oor s).st.wpm_state ≠ 0 ∨ s.last_wpm_state ≠ 0) →
      (wpm_work_handler oor s).raised = [] ∧
      (wpm_work_handler oor s).st.last_wpm_state = s.last_wpm_state) := by
  have hr := handler_raised oor s
  have hl := handler_last oor s
  by_cases h : (wpm_work_handler oor s).st.wpm_state ≠ 0 ∨ s.last_wpm_state ≠ 0
  · rw [if_pos h] at hr hl
    refine ⟨?_, fun _ => ⟨hr, hl⟩, fun hn => absurd h hn⟩
    rw [hr]
    simp [h]
  · rw [if_neg h] at hr hl
    refine ⟨?_, fun hp => absurd hp h, fun _ => ⟨hr, hl⟩⟩
    rw [hr]
    simp [h]

/-- Instance of `publish_policy`: a tick that computes 0 after 48 had been
published raises the single notification 0. -/
theorem publish_policy_witness :
    ((wpm_work_handler oorLowByte { wpm_state := 48, last_wpm_state := 48
                                    wpm_update_counter := 1
                                    key_pressed_count := 0 }).st.wpm_state ≠ 0 ∨
      (48 : Nat) ≠ 0) ∧
    (wpm_work_handler oorLowByte { wpm_state := 48, last_wpm_state := 48
                                   wpm_update_counter := 1
                                   key_pressed_count := 0 }).raised = [{ state := 0 }] :=
  ⟨Or.inr (by decide),
    ((publish_policy oorLowByte
      { wpm_state := 48, last_wpm_state := 48, wpm_update_counter := 1
        key_pressed_count := 0 }).2.1 (Or.inr (by decide))).1.trans (by decide)⟩

/-- C5: if a tick produces a nonzero `currentWpm` and each of the next `N ≥ 1`
consecutive ticks produces `currentWpm = 0`, then the first of those ticks
raises the single notification 0 and the remaining `N - 1` raise none. -/
theorem publish_once_on_zero (oor : F32 → Nat) (s : State) (N : Nat) (hN : 1 ≤ N)
    (hnz : (wpm_work_handler oor s).st.wpm_state ≠ 0)
    (hz : ∀ i, 1 ≤ i → i ≤ N → (ticks oor i (wpm_work_handler oor s).st).wpm_state = 0) :
    tickLog oor N (wpm_work_handler oor s).st
      = [{ state := 0 }] :: List.replicate (N - 1) [] := by
  obtain ⟨n, rfl⟩ : ∃ n, N = n + 1 := ⟨N - 1, by omega⟩
  have hl := handler_last oor s
  rw [if_pos (Or.inl hnz)] at hl
  have h1 : (wpm_work_handler oor (wpm_work_handler oor s).st).st.wpm_state = 0 :=
    hz 1 (Nat.le_refl 1) (by omega)
  have hr := handler_raised oor (wpm_work_handler oor s).st
  have hl1 := handler_last oor (wpm_work_handler oor s).st
  rw [if_pos (Or.inr (by rw [hl]; exact hnz)), h1] at hr hl1
  rw [tickLog, hr, Nat.add_sub_cancel]
  rw [quiet_ticks oor n _ hl1 (fun i hi1 hin => by
    have := hz (i + 1) (by omega) (by omega)
    rwa [ticks_succ] at this)]

/-- Instance of `publish_once_on_zero`: 40 key releases read at the 40th tick
give 48 and reset the window; the three ticks that follow read 0 and raise
one notification 0 between them. -/
theorem publish_once_on_zero_witness :
    (wpm_work_handler oorLowByte { wpm_state := 0, last_wpm_state := 0, wpm_update_counter := 39
                                   key_pressed_count := 40 }).st.wpm_state ≠ 0 ∧
    tickLog oorLowByte 3
      (wpm_work_handler oorLowByte { wpm_state := 0, last_wpm_state := 0
                                     wpm_update_counter := 39
                                     key_pressed_count := 40 }).st
      = [[{ state := 0 }], [], []] :=
  ⟨by decide,
    publish_once_on_zero oorLowByte
      { wpm_state := 0, last_wpm_state := 0, wpm_update_counter := 39, key_pressed_count := 40 }
      3 (by decide) (by decide) (by decide)⟩

/-- C6, as stated, fails: on the freshly started state with no key release
the first tick raises no notification, for `last_wpm_state` starts at 0. -/
theorem first_idle_tick_raises_nothing :
    ¬ ∃ oor : F32 → Nat, (wpm_work_handler oor fresh).raised = [{ state := 0 }] := by
  rintro ⟨oor, h⟩
  have := (idle_tick oor fresh (by decide) (by decide) (by decide)).2.1
  rw [this] at h
  exact absurd h (by decide)

/-- C6, amended: from the freshly started state with no key-release events
the first tick computes 0 and raises nothing, and so does every later
tick. -/
theorem idle_from_start (oor : F32 → Nat) (n : Nat) :
    (wpm_work_handler oor fresh).st.wpm_state = 0 ∧
    (wpm_work_handler oor fresh).raised = [] ∧
    (ticks oor (n + 1) fresh).wpm_state = 0 ∧
    tickLog oor n fresh = List.replicate n [] :=
  ⟨(idle_tick oor fresh (by decide) (by decide) (by decide)).1,
    (idle_tick oor fresh (by decide) (by decide) (by decide)).2.1,
    (idle_ticks oor (n + 1) fresh (by decide) (by decide) (by decide)).1 (by omega),
    (idle_ticks oor n fresh (by decide) (by decide) (by decide)).2⟩

/-- C7: from the freshly started state, after any interleaving of events and
ticks that ends with the 40th tick, `tickCount` and `keyReleaseCount` are
both 0. -/
theorem window_reset (oor : F32 → Nat) (tr : List Input) (h : countTicks tr = 39) :
    (run oor fresh (tr ++ [Input.tick])).wpm_update_counter = 0 ∧
    (run oor fresh (tr ++ [Input.tick])).key_pressed_count = 0 := by
  have hc := run_counter oor tr fresh (by rw [h]; decide)
  have h0 : fresh.wpm_update_counter = 0 := by decide
  rw [h, h0] at hc
  have hrun : run oor fresh (tr ++ [Input.tick])
      = (wpm_work_handler oor (run oor fresh tr)).st := by
    simp [run, step, List.foldl_append]
  have hR : RESET_UPDATES_COUNT = 40 := by decide
  rw [hrun, handler_counter, handler_keys, hc, hR]
  simp

/-- Instance of `window_reset`: seven key releases, then 39 ticks, one more
key release and the 40th tick. -/
theorem window_reset_witness :
    countTicks (List.replicate 7 (Input.event (key_release 4)) ++ List.replicate 39 Input.tick
      ++ [Input.event (key_release 5)]) = 39 ∧
    (run oorLowByte fresh
      ((List.replicate 7 (Input.event (key_release 4)) ++ List.replicate 39 Input.tick
        ++ [Input.event (key_release 5)]) ++ [Input.tick])).key_pressed_count = 0 :=
  ⟨by decide,
    (window_reset oorLowByte
      (List.replicate 7 (Input.event (key_release 4)) ++ List.replicate 39 Input.tick
        ++ [Input.event (key_release 5)]) (by decide)).2⟩

/-- C8: on a state with `keyReleaseCount < 65535` a key-release event adds
exactly 1 to `keyReleaseCount`, a key-press event or an event of another type
leaves it unchanged; in every case the other three variables are unchanged,
nothing is raised and the listener returns 0. -/
theorem listener_effect (s : State) (eh : zmk_event_t) (h : s.key_pressed_count < 65535) :
    (∀ kc, eh = zmk_event_t.keycode_state_changed { keycode := kc, state := false } →
      (wpm_event_listener s eh).st.key_pressed_count = s.key_pressed_count + 1) ∧
    (∀ kc, eh = zmk_event_t.keycode_state_changed { keycode := kc, state := true } →
      (wpm_event_listener s eh).st.key_pressed_count = s.key_pressed_count) ∧
    (eh = zmk_event_t.other →
      (wpm_event_listener s eh).st.key_pressed_count = s.key_pressed_count) ∧
    (wpm_event_listener s eh).st.wpm_state = s.wpm_state ∧
    (wpm_event_listener s eh).st.last_wpm_state = s.last_wpm_state ∧
    (wpm_event_listener s eh).st.wpm_update_counter = s.wpm_update_counter ∧
    (wpm_event_listener s eh).raised = [] ∧
    (wpm_event_listener s eh).ret = 0 := by
  refine ⟨?_, ?_, ?_, ?_, ?_, ?_, ?_, ?_⟩
  · rintro kc rfl
    simp only [wpm_event_listener, as_zmk_keycode_state_changed, Bool.not_false, if_true]
    exact Nat.mod_eq_of_lt (by omega)
  · rintro kc rfl
    simp [wpm_event_listener, as_zmk_keycode_state_changed]
  · rintro rfl
    simp [wpm_event_listener, as_zmk_keycode_state_changed]
  all_goals
    unfold wpm_event_listener
    split
    · split_ifs <;> rfl
    · rfl

/-- Instance of `listener_effect`: a release of key 4 on a state holding 7
key releases leaves 8. -/
theorem listener_effect_witness :
    (7 < 65535) ∧
    (wpm_event_listener { wpm_state := 48, last_wpm_state := 48, wpm_update_counter := 2
                          key_pressed_count := 7 } (key_release 4)).st.key_pressed_count
      = 7 + 1 :=
  ⟨by decide,
    (listener_effect
      { wpm_state := 48, last_wpm_state := 48, wpm_update_counter := 2, key_pressed_count := 7 }
      (key_release 4) (by decide)).1 4 rfl⟩

/-- C9: `wpm_init` on the static initial state leaves `currentWpm`,
`tickCount` and `keyReleaseCount` at 0 and returns 0. -/
theorem startup_state :
    (wpm_init static_init).st.wpm_state = 0 ∧
    (wpm_init static_init).st.wpm_update_counter = 0 ∧
    (wpm_init static_init).st.key_pressed_count = 0 ∧
    (wpm_init static_init).ret = 0 := by
  decide

/-- C10: before startup `zmk_wpm_get_state` returns 255, the largest value
of the 8-bit unsigned storage type. -/
theorem query_before_startup :
    (zmk_wpm_get_state static_init).ret = 255 ∧ (255 : Int) = 2 ^ 8 - 1 := by
  decide

/-- C11: `zmk_wpm_get_state` returns the `currentWpm` of the state, leaves the
four variables unchanged and raises nothing, so any number of successive
calls return the same value and leave the state as it was. -/
theorem query_is_pure_read (s : State) (n : Nat) :
    (zmk_wpm_get_state s).ret = (s.wpm_state : Int) ∧
    (zmk_wpm_get_state s).st = s ∧
    (zmk_wpm_get_state s).raised = [] ∧
    queries n s = (List.replicate n (s.wpm_state : Int), s) := by
  refine ⟨rfl, rfl, rfl, ?_⟩
  induction n with
  | zero => rfl
  | succ n ih =>
    have hst : (zmk_wpm_get_state s).st = s := rfl
    have hret : (zmk_wpm_get_state s).ret = (s.wpm_state : Int) := rfl
    rw [queries, hst, hret, ih, List.replicate_succ]

/-- C12, as stated, fails: whatever the out-of-range conversion does, some
state reachable from startup makes a tick raise a notification although the
value it computes equals the `currentWpm` before the tick (one key release, a
tick reading 48, a second key release, and the next tick reads 48 again). -/
theorem notification_without_change :
    ¬ ∃ oor : F32 → Nat, ∀ tr : List Input,
      (wpm_work_handler oor (run oor fresh tr)).raised ≠ [] →
      (wpm_work_handler oor (run oor fresh tr)).st.wpm_state ≠ (run oor fresh tr).wpm_state := by
  rintro ⟨oor, h⟩
  have hrun : run oor fresh
      [Input.event (key_release 4), Input.tick, Input.event (key_release 4)]
      = { wpm_state := 48, last_wpm_state := 48, wpm_update_counter := 1
          key_pressed_count := 2 } := by
    have ht := tick_nonzero oor { wpm_state := 0, last_wpm_state := 0, wpm_update_counter := 0
                                  key_pressed_count := 1 } 48 (by decide) (by decide) (by decide)
      (by decide)
    simp only [run, List.foldl, step, fresh_eq, wpm_event_listener, key_release,
      as_zmk_keycode_state_changed, Bool.not_false, if_true] at ht ⊢
    simp [ht]
  have ht2 := tick_nonzero oor { wpm_state := 48, last_wpm_state := 48, wpm_update_counter := 1
                                 key_pressed_count := 2 } 48 (by decide) (by decide) (by decide)
    (by decide)
  have hbad := h [Input.event (key_release 4), Input.tick, Input.event (key_release 4)]
  rw [hrun, ht2] at hbad
  exact hbad (by simp) rfl

/-- C12, amended: in every state reachable from startup a tick raises a
notification exactly when the newly computed `currentWpm` or the `currentWpm`
before the tick is nonzero; in particular it raises one, carrying the new
value, whenever the computed value differs from the value before the tick. -/
theorem publish_on_reachable (oor : F32 → Nat) (tr : List Input) :
    ((wpm_work_handler oor (run oor fresh tr)).raised ≠ [] ↔
      ((wpm_work_handler oor (run oor fresh tr)).st.wpm_state ≠ 0 ∨
        (run oor fresh tr).wpm_state ≠ 0)) ∧
    ((wpm_work_handler oor (run oor fresh tr)).st.wpm_state ≠ (run oor fresh tr).wpm_state →
      (wpm_work_handler oor (run oor fresh tr)).raised
        = [{ state := (wpm_work_handler oor (run oor fresh tr)).st.wpm_state }]) := by
  have hinv : (run oor fresh tr).last_wpm_state = (run oor fresh tr).wpm_state :=
    run_last_eq oor tr fresh (by decide)
  have hr := handler_raised oor (run oor fresh tr)
  rw [hinv] at hr
  constructor
  · rw [hr]
    split_ifs with h
    · simp [h]
    · simp [h]
  · intro hne
    rw [hr, if_pos]
    by_contra hcon
    rw [not_or, not_not, not_not] at hcon
    exact hne (by rw [hcon.1, hcon.2])

/-- Instance of `publish_on_reachable`: after one key release the first tick
reads 48 where 0 stood before, and raises the notification 48. -/
theorem publish_on_reachable_witness :
    (wpm_work_handler oorLowByte (run oorLowByte fresh [Input.event (key_release 4)])).st.wpm_state
      ≠ (run oorLowByte fresh [Input.event (key_release 4)]).wpm_state ∧
    (wpm_work_handler oorLowByte (run oorLowByte fresh [Input.event (key_release 4)])).raised
      = [{ state := 48 }] :=
  ⟨by decide,
    ((publish_on_reachable oorLowByte [Input.event (key_release 4)]).2 (by decide)).trans
      (by decide)⟩

/-- C14: two states that agree on `keyReleaseCount` and `tickCount` get the
same new `currentWpm` from the tick handler, whatever their `currentWpm` and
`lastPublishedWpm`. -/
theorem wpm_depends_on_counters_only (oor : F32 → Nat) (s1 s2 : State)
    (hk : s1.key_pressed_count = s2.key_pressed_count)
    (hc : s1.wpm_update_counter = s2.wpm_update_counter) :
    (wpm_work_handler oor s1).st.wpm_state = (wpm_work_handler oor s2).st.wpm_state := by
  rw [handler_wpm, handler_wpm, hk, hc]

/-- Instance of `wpm_depends_on_counters_only`: two states with 3 key releases
at the second tick, differing in the other two variables. -/
theorem wpm_depends_on_counters_only_witness :
    ((3 : Nat) = 3) ∧ ((1 : Nat) = 1) ∧
    (wpm_work_handler oorLowByte { wpm_state := 0, last_wpm_state := 0, wpm_update_counter := 1
                                   key_pressed_count := 3 }).st.wpm_state
      = (wpm_work_handler oorLowByte { wpm_state := 96, last_wpm_state := 48
                                       wpm_update_counter := 1
                                       key_pressed_count := 3 }).st.wpm_state :=
  ⟨rfl, rfl,
    wpm_depends_on_counters_only oorLowByte
      { wpm_state := 0, last_wpm_state := 0, wpm_update_counter := 1, key_pressed_count := 3 }
      { wpm_state := 96, last_wpm_state := 48, wpm_update_counter := 1, key_pressed_count := 3 }
      rfl rfl⟩

/-- C15: in every state reachable from the freshly started state by events
and ticks `tickCount < 40`; hence the counter incremented by the next tick
does not wrap at eight bits, lies in `1..40`, and the divisor
`CHARS_PER_WORD * tickCount` of the formula is the finite nonzero value
`5 * tickCount`. -/
theorem tick_counter_bounded (oor : F32 → Nat) (tr : List Input) :
    (run oor fresh tr).wpm_update_counter < 40 ∧
    ((run oor fresh tr).wpm_update_counter + 1) % 2 ^ 8
      = (run oor fresh tr).wpm_update_counter + 1 ∧
    1 ≤ (run oor fresh tr).wpm_update_counter + 1 ∧
    (run oor fresh tr).wpm_update_counter + 1 ≤ 40 ∧
    F32.IsInt (F32.mul CHARS_PER_WORD (F32.ofNat ((run oor fresh tr).wpm_update_counter + 1)))
      (5 * ((run oor fresh tr).wpm_update_counter + 1)) ∧
    5 * ((run oor fresh tr).wpm_update_counter + 1) ≠ 0 := by
  have hlt : (run oor fresh tr).wpm_update_counter < 40 :=
    run_counter_lt oor tr fresh (by decide)
  refine ⟨hlt, Nat.mod_eq_of_lt (by omega), by omega, by omega, ?_, by omega⟩
  exact mul_int _ _ 5 _ (ofNat_int 5 (by norm_num) (by norm_num))
    (ofNat_int _ (by omega) (by norm_num; omega)) (by norm_num) (by omega)
    (by norm_num; omega)

/-- C16: on a state with `tickCount ≤ 254`, a tick with `tickCount + 1 < 40`
leaves `tickCount` one higher and `keyReleaseCount` unchanged, and a tick with
`tickCount + 1 ≥ 40` leaves both at 0. -/
theorem step_reset_policy (oor : F32 → Nat) (s : State) (h : s.wpm_update_counter ≤ 254) :
    (s.wpm_update_counter + 1 < 40 →
      (wpm_work_handler oor s).st.wpm_update_counter = s.wpm_update_counter + 1 ∧
      (wpm_work_handler oor s).st.key_pressed_count = s.key_pressed_count) ∧
    (40 ≤ s.wpm_update_counter + 1 →
      (wpm_work_handler oor s).st.wpm_update_counter = 0 ∧
      (wpm_work_handler oor s).st.key_pressed_count = 0) := by
  have hmod : (s.wpm_update_counter + 1) % 2 ^ 8 = s.wpm_update_counter + 1 :=
    Nat.mod_eq_of_lt (by omega)
  have hR : RESET_UPDATES_COUNT = 40 := by decide
  rw [handler_counter, handler_keys, hmod, hR]
  constructor
  · intro hlt
    rw [if_neg (by omega), if_neg (by omega)]
    exact ⟨rfl, rfl⟩
  · intro hge
    rw [if_pos hge, if_pos hge]
    exact ⟨rfl, rfl⟩

/-- Instance of `step_reset_policy`: the third tick of a window holding 7 key
releases leaves `tickCount = 3` and the 7 key releases. -/
theorem step_reset_policy_witness :
    (2 ≤ 254) ∧ (2 + 1 < 40) ∧
    (wpm_work_handler oorLowByte { wpm_state := 0, last_wpm_state := 0, wpm_update_counter := 2
                                   key_pressed_count := 7 }).st.wpm_update_counter = 2 + 1 ∧
    (wpm_work_handler oorLowByte { wpm_state := 0, last_wpm_state := 0, wpm_update_counter := 2
                                   key_pressed_count := 7 }).st.key_pressed_count = 7 :=
  ⟨by decide, by decide,
    (step_reset_policy oorLowByte
      { wpm_state := 0, last_wpm_state := 0, wpm_update_counter := 2, key_pressed_count := 7 }
      (by decide)).1 (by decide)⟩

/-- C17: for every input state, after `wpm_work_handler` the variable
`last_wpm_state` equals `wpm_state`: the value was published and copied, or
both are 0. -/
theorem last_published_equals_current (oor : F32 → Nat) (s : State) :
    (wpm_work_handler oor s).st.last_wpm_state = (wpm_work_handler oor s).st.wpm_state ∧
    ((wpm_work_handler oor s).raised
        = [{ state := (wpm_work_handler oor s).st.wpm_state }] ∨
      ((wpm_work_handler oor s).st.wpm_state = 0 ∧
        (wpm_work_handler oor s).st.last_wpm_state = 0)) := by
  refine ⟨handler_last_eq oor s, ?_⟩
  have hr := handler_raised oor s
  by_cases h : (wpm_work_handler oor s).st.wpm_state ≠ 0 ∨ s.last_wpm_state ≠ 0
  · left
    rw [if_pos h] at hr
    exact hr
  · right
    have h1 : (wpm_work_handler oor s).st.wpm_state = 0 := by
      by_contra hne
      exact h (Or.inl hne)
    exact ⟨h1, by rw [handler_last_eq, h1]⟩

/-- C18: for a fixed key count and tick counts `1 ≤ c1 ≤ c2 ≤ 40` (the
counters of the two states plus one), if the exact raw value at `c1` has floor
at most 255 then the `currentWpm` computed at `c2` is at most the one computed
at `c1`; in particular if the value at `c1` is 0, so is the value at `c2`. -/
theorem decay_within_window (oor : F32 → Nat) (s1 s2 : State)
    (hk : s1.key_pressed_count = s2.key_pressed_count)
    (h12 : s1.wpm_update_counter ≤ s2.wpm_update_counter)
    (h2 : s2.wpm_update_counter ≤ 39)
    (he : exactFloor s1.key_pressed_count (s1.wpm_update_counter + 1) ≤ 255) :
    (wpm_work_handler oor s2).st.wpm_state ≤ (wpm_work_handler oor s1).st.wpm_state ∧
    ((wpm_work_handler oor s1).st.wpm_state = 0 → (wpm_work_handler oor s2).st.wpm_state = 0) := by
  have he2 : exactFloor s2.key_pressed_count (s2.wpm_update_counter + 1) ≤ 255 := by
    rw [← hk]
    exact le_trans (exactFloor_anti _ _ _ (by omega) (by omega)) he
  have hle : (wpm_work_handler oor s2).st.wpm_state ≤ (wpm_work_handler oor s1).st.wpm_state := by
    rw [handler_wpm_of_range oor s1 (by omega) he, handler_wpm_of_range oor s2 (by omega) he2,
      ← hk]
    exact floorThreshold_mono _ _
      (rawTrunc_anti _ _ _ (by omega) (by omega) (by omega) he)
  exact ⟨hle, fun h0 => by omega⟩

/-- Instance of `decay_within_window`: one key release reads 5 at the ninth
tick and 0 at the tenth. -/
theorem decay_within_window_witness :
    ((1 : Nat) = 1) ∧ (8 ≤ 9) ∧ (9 ≤ 39) ∧ exactFloor 1 (8 + 1) ≤ 255 ∧
    (wpm_work_handler oorLowByte { wpm_state := 0, last_wpm_state := 0, wpm_update_counter := 9
                                   key_pressed_count := 1 }).st.wpm_state
      ≤ (wpm_work_handler oorLowByte { wpm_state := 0, last_wpm_state := 0
                                       wpm_update_counter := 8
                                       key_pressed_count := 1 }).st.wpm_state :=
  ⟨rfl, by decide, by decide, by decide,
    (decay_within_window oorLowByte
      { wpm_state := 0, last_wpm_state := 0, wpm_update_counter := 8, key_pressed_count := 1 }
      { wpm_state := 0, last_wpm_state := 0, wpm_update_counter := 9, key_pressed_count := 1 }
      rfl (by decide) (by decide) (by decide)).1⟩

end Wpm
